import Mathlib

/-!
Verification of the microjson value scanner and navigators.

The Rust source is embedded shallowly:

* a Rust string slice becomes a `List Char`; byte positions and slice
  lengths are tracked as UTF-8 byte counts (`charBytes`, `utf8Len`),
  and the partial byte-slicing operators of Rust (which panic when an
  index is out of bounds or not a character boundary) become `takeB`,
  `dropB` and `sliceB`, returning `Option`;
* `Result<T, &'static str>` becomes `Res T` with `.fail (.msg s)` for
  `Err(s)`; a Rust panic (out-of-bounds slice, failed `unwrap`) is the
  distinguished outcome `.fail .panicked`;
* the recursion of `JSONValue::parse` (and its internal while loops)
  is driven by an explicit fuel parameter; exhausted fuel is reported
  as `.fail .outOfFuel`, an artifact of the embedding distinct from
  both `Err` and panic.  All theorems either quantify over the fuel
  or supply a concrete sufficient amount.
-/

namespace Microjson

/-- Outcome tags for embedded Rust functions: an `Err(&str)` value, a
panic (out-of-bounds slicing or a failed `unwrap`), or exhaustion of
the embedding fuel. -/
inductive PErr where
  | msg : String → PErr
  | panicked : PErr
  | outOfFuel : PErr
deriving DecidableEq

/-- Embedded `Result<A, &'static str>` together with the panic and
fuel outcomes. -/
inductive Res (α : Type) where
  | ok : α → Res α
  | fail : PErr → Res α
deriving DecidableEq

/-- Sequencing of embedded results, mirroring the `?` operator. -/
def Res.bind {α β : Type} : Res α → (α → Res β) → Res β
  | .ok a, f => f a
  | .fail e, _ => .fail e

/-- Rust `Result::unwrap`: an `Err` becomes a panic.  The fuel
artifact is preserved so that fuel exhaustion is never mistaken for a
genuine panic. -/
def unwrapR {α : Type} : Res α → Res α
  | .ok a => .ok a
  | .fail .outOfFuel => .fail .outOfFuel
  | .fail _ => .fail .panicked

/-- The six JSON value kinds of `JSONValueType` in the source. -/
inductive JSONValueType where
  | String
  | Number
  | Object
  | Array
  | Bool
  | Null
deriving DecidableEq

/-- `JSONValue<'a>`: a borrowed span of the input plus a kind tag. -/
structure JSONValue where
  contents : List Char
  value_type : JSONValueType
deriving DecidableEq

/-- Number of bytes of the UTF-8 encoding of a character
(Rust `char::len_utf8`). -/
def charBytes (c : Char) : Nat :=
  if c.toNat < 0x80 then 1
  else if c.toNat < 0x800 then 2
  else if c.toNat < 0x10000 then 3
  else 4

/-- Byte length of a string slice (Rust `str::len`). -/
def utf8Len : List Char → Nat
  | [] => 0
  | c :: r => charBytes c + utf8Len r

/-- Rust byte slice `&s[..k]`: `none` models the panic when `k` is
past the end or not a character boundary. -/
def takeB : List Char → Nat → Option (List Char)
  | l, k =>
    if k = 0 then some []
    else
      match l with
      | [] => none
      | c :: r =>
        if charBytes c ≤ k then Option.map (fun t => c :: t) (takeB r (k - charBytes c))
        else none

/-- Rust byte slice `&s[k..]`: `none` models the panic when `k` is
past the end or not a character boundary. -/
def dropB : List Char → Nat → Option (List Char)
  | l, k =>
    if k = 0 then some l
    else
      match l with
      | [] => none
      | c :: r =>
        if charBytes c ≤ k then dropB r (k - charBytes c)
        else none

/-- Rust byte slice `&s[a..b]`; a reversed range `a > b` panics. -/
def sliceB (l : List Char) (a b : Nat) : Option (List Char) :=
  if a ≤ b then Option.bind (dropB l a) (fun t => takeB t (b - a)) else none

/-- Rust `char::is_whitespace`: the Unicode White_Space property. -/
def rustIsWhitespace (c : Char) : Bool :=
  decide (c.toNat = 0x9 ∨ c.toNat = 0xa ∨ c.toNat = 0xb ∨ c.toNat = 0xc ∨
    c.toNat = 0xd ∨ c.toNat = 0x20 ∨ c.toNat = 0x85 ∨ c.toNat = 0xa0 ∨
    c.toNat = 0x1680 ∨ (0x2000 ≤ c.toNat ∧ c.toNat ≤ 0x200a) ∨
    c.toNat = 0x2028 ∨ c.toNat = 0x2029 ∨ c.toNat = 0x202f ∨
    c.toNat = 0x205f ∨ c.toNat = 0x3000)

/-- The slice part of `trim_start` in the source: drop the leading
whitespace characters. -/
def trimStart (l : List Char) : List Char := l.dropWhile rustIsWhitespace

/-- The count part of `trim_start` in the source: how many bytes of
leading whitespace were removed (`value_len - value.len()`). -/
def wsCount (l : List Char) : Nat := utf8Len (l.takeWhile rustIsWhitespace)

/-- Characters admitted by the number branch of `parse`:
`0-9 | - | e | E | .`. -/
def isNumberChar (c : Char) : Bool :=
  c.isDigit || c == '-' || c == 'e' || c == 'E' || c == '.'

/-- The number branch of `parse`: consume a maximal run of number
characters, accumulating their byte length in `acc`; a minus sign
after position 0 is an error. -/
def numScan : List Char → Nat → Res Nat
  | [], acc => .ok acc
  | c :: r, acc =>
    if isNumberChar c then
      if c = '-' ∧ 0 < acc then .fail (.msg "Unexpected \x27-\x27 while parsing number")
      else numScan r (acc + charBytes c)
    else .ok acc

/-- The string branch of `parse`: byte length consumed by the scan of
the text after the opening quote, threading the `is_escaped` flag.
Each character first contributes its byte length; an unescaped quote
then stops the scan (so the closing quote is included), a backslash
toggles the flag, and any other character clears it. -/
def strScan : List Char → Bool → Nat
  | [], _ => 0
  | c :: r, esc =>
    charBytes c +
      (if c = '"' ∧ esc = false then 0
       else strScan r (if c = '\\' then !esc else false))

/-- The literal branches of `parse`: compare the first `k` bytes of
`c` against the literal (`&contents[..k] != lit`), with the slice
panicking when fewer than `k` bytes remain. -/
def litCheck (c : List Char) (k : Nat) (lit : List Char) (vt : JSONValueType) :
    Res (JSONValueType × Nat) :=
  match takeB c k with
  | none => .fail .panicked
  | some p => if p = lit then .ok (vt, k) else .fail (.msg "Unrecognised token")

/-- The object while-loop of `parse`.  `pv` is the recursive parse
call, `contents` the text after the consumed part, `value_len` the
bytes consumed so far (starting at 1 for the opening brace).  The loop
fuel only bounds the number of iterations of this while loop. -/
def objLoopF (pv : List Char → Res (JSONValue × Nat)) :
    Nat → List Char → Nat → Res Nat
  | 0, _, _ => .fail .outOfFuel
  | loopFuel + 1, contents, value_len =>
    match contents with
    | [] => .ok value_len
    | _ :: _ =>
      if (trimStart contents).head? = some '}' then
        .ok (value_len + wsCount contents + 1)
      else
        match pv contents with
        | .fail e => .fail e
        | .ok (item, item_len) =>
          if item.value_type ≠ .String then .fail (.msg "Cannot parse object key")
          else
            match dropB contents item_len with
            | none => .fail .panicked
            | some after =>
              match trimStart after with
              | [] => .fail (.msg "End of stream while parsing object")
              | sep :: afterSep =>
                if sep = ':' then
                  match pv afterSep with
                  | .fail e => .fail e
                  | .ok (_, val_len) =>
                    match dropB afterSep val_len with
                    | none => .fail .panicked
                    | some after2 =>
                      match trimStart after2 with
                      | [] => .fail (.msg "End of stream while parsing object")
                      | sep2 :: afterSep2 =>
                        if sep2 = ',' then
                          objLoopF pv loopFuel afterSep2
                            (value_len + item_len + wsCount after + 1 + val_len +
                              wsCount after2 + 1)
                        else if sep2 = '}' then
                          objLoopF pv loopFuel (sep2 :: afterSep2)
                            (value_len + item_len + wsCount after + 1 + val_len +
                              wsCount after2)
                        else .fail (.msg "Illegal token while parsing object")
                else .fail (.msg "Illegal token while parsing object")

/-- The array while-loop of `parse`, analogous to `objLoopF` without
the key and separator handling. -/
def arrLoopF (pv : List Char → Res (JSONValue × Nat)) :
    Nat → List Char → Nat → Res Nat
  | 0, _, _ => .fail .outOfFuel
  | loopFuel + 1, contents, value_len =>
    match contents with
    | [] => .ok value_len
    | _ :: _ =>
      if (trimStart contents).head? = some ']' then
        .ok (value_len + wsCount contents + 1)
      else
        match pv contents with
        | .fail e => .fail e
        | .ok (_, item_len) =>
          match dropB contents item_len with
          | none => .fail .panicked
          | some after =>
            match trimStart after with
            | [] => .fail (.msg "End of stream while parsing array")
            | sep :: afterSep =>
              if sep = ',' then
                arrLoopF pv loopFuel afterSep
                  (value_len + item_len + wsCount after + 1)
              else if sep = ']' then
                arrLoopF pv loopFuel (sep :: afterSep)
                  (value_len + item_len + wsCount after)
              else .fail (.msg "Illegal token while parsing array")

/-- The dispatch of `parse` over the first significant character,
computing the value type and the byte length of the span.  The loop
fuel `rest.length + 1` given to the while loops bounds their iteration
count by the character count of the remaining text, which the loops
can never exceed, each iteration consuming at least one byte. -/
def scanValue (pv : List Char → Res (JSONValue × Nat)) (c : List Char) :
    Res (JSONValueType × Nat) :=
  match c with
  | [] => .fail (.msg "Could not interpret start of token")
  | ch :: rest =>
    if ch = '{' then
      match objLoopF pv (rest.length + 1) rest 1 with
      | .ok l => .ok (.Object, l)
      | .fail e => .fail e
    else if ch = '[' then
      match arrLoopF pv (rest.length + 1) rest 1 with
      | .ok l => .ok (.Array, l)
      | .fail e => .fail e
    else if ch = '"' then .ok (.String, 1 + strScan rest false)
    else if ch.isDigit || ch = '-' then
      match numScan c 0 with
      | .ok l => .ok (.Number, l)
      | .fail e => .fail e
    else if ch = 't' then litCheck c 4 ['t', 'r', 'u', 'e'] .Bool
    else if ch = 'f' then litCheck c 5 ['f', 'a', 'l', 's', 'e'] .Bool
    else if ch = 'n' then litCheck c 4 ['n', 'u', 'l', 'l'] .Null
    else .fail (.msg "Could not interpret start of token")

/-- One unfolding of `JSONValue::parse`: trim leading whitespace,
dispatch on the first significant character, and assemble the returned
pair `(JSONValue \x7b contents: &contents[..value_len], value_type \x7d,
whitespace_trimmed + value_len)`. -/
def parseStep (pv : List Char → Res (JSONValue × Nat)) (s : List Char) :
    Res (JSONValue × Nat) :=
  match scanValue pv (trimStart s) with
  | .fail e => .fail e
  | .ok (vt, len) =>
    match takeB (trimStart s) len with
    | some span => .ok (⟨span, vt⟩, wsCount s + len)
    | none => .fail .panicked

/-- `JSONValue::parse`, with fuel bounding the recursion depth. -/
def parse : Nat → List Char → Res (JSONValue × Nat)
  | 0, _ => .fail .outOfFuel
  | fuel + 1, s => parseStep (parse fuel) s

/-- Wrap-around of `isize` arithmetic on a 64-bit platform. -/
def wrap64 (x : Int) : Int := (x + 2 ^ 63) % 2 ^ 64 - 2 ^ 63

/-- The digit loop of `read_integer`: every character of the span must
be a decimal digit (note: including any leading minus sign, which is
therefore rejected), accumulating `ans * 10 + digit` with `isize`
wrap-around. -/
def riLoop : List Char → Int → Res Int
  | [], ans => .ok ans
  | c :: r, ans =>
    if c.isDigit then riLoop r (wrap64 (ans * 10 + (c.toNat - '0'.toNat)))
    else .fail (.msg "Cannot parse value as integer")

/-- `JSONValue::read_integer`. -/
def read_integer (v : JSONValue) : Res Int :=
  if v.value_type ≠ .Number then .fail (.msg "Cannot parse value as integer")
  else
    Res.bind (riLoop v.contents 0) (fun ans =>
      .ok (if v.contents.head? = some '-' then wrap64 (-ans) else ans))

/-- The accumulation loop of `read_float`.  The source accumulates in
`f32`; the claims under verification concern only the type guard of
`read_float`, and ℚ stands in for the reduced-precision float
accumulation (the spec declares the precision loss intentional). -/
def rfLoop : List Char → Rat → Bool → Rat → Rat
  | [], ans, _, _ => ans
  | c :: r, ans, integer, column =>
    if c.isDigit then
      if integer then rfLoop r (ans * 10 + (c.toNat - '0'.toNat)) integer column
      else rfLoop r (ans + (c.toNat - '0'.toNat) * column) integer (column / 10)
    else rfLoop r ans (if c = '.' then false else integer) column

/-- `JSONValue::read_float`. -/
def read_float (v : JSONValue) : Res Rat :=
  if v.value_type ≠ .Number then .fail (.msg "Cannot parse value as float")
  else
    Res.ok
      (if v.contents.head? = some '-' then -rfLoop v.contents 0 true (1 / 10)
       else rfLoop v.contents 0 true (1 / 10))

/-- `JSONValue::read_string`: strip one byte from each end of the
span, `&contents[1..len - 1]`.  On a span of byte length 1 the range
`1..0` is reversed and the slice panics; `Nat` subtraction sends the
impossible length 0 to the same panic by the range check instead of by
the wrap-around of `usize`. -/
def read_string (v : JSONValue) : Res (List Char) :=
  if v.value_type ≠ .String then .fail (.msg "Cannot parse value as string")
  else
    match sliceB v.contents 1 (utf8Len v.contents - 1) with
    | some s => .ok s
    | none => .fail .panicked

/-- The skip loop of `get_nth_array_item`: `n` times, measure the next
value with an unwrapped parse and step past it and the following
separator byte (`&contents[value_len..].trim_start()[1..]`). -/
def nthLoop (pv : List Char → Res (JSONValue × Nat)) :
    Nat → List Char → Res (List Char)
  | 0, contents => .ok contents
  | n + 1, contents =>
    match unwrapR (pv contents) with
    | .fail e => .fail e
    | .ok (_, value_len) =>
      match dropB contents value_len with
      | none => .fail .panicked
      | some after =>
        match dropB (trimStart after) 1 with
        | none => .fail .panicked
        | some rest => nthLoop pv n rest

/-- `JSONValue::get_nth_array_item`. -/
def get_nth_array_item (fuel : Nat) (v : JSONValue) (n : Nat) : Res JSONValue :=
  if v.value_type ≠ .Array then .fail (.msg "Cannot parse value as an array")
  else
    match dropB v.contents 1 with
    | none => .fail .panicked
    | some c0 =>
      match nthLoop (parse fuel) n c0 with
      | .fail e => .fail e
      | .ok c =>
        match parse fuel c with
        | .ok (item, _) => .ok item
        | .fail e => .fail e

/-- The search loop of `get_key_value`: parse a key with an unwrapped
parse, step past it and the separator, compare the unwrapped
`read_string` of the key against the target, and either parse the
value or skip it and continue.  The loop fuel only bounds the number
of iterations. -/
def gkvLoop (pv : List Char → Res (JSONValue × Nat)) (key : List Char) :
    Nat → List Char → Res JSONValue
  | 0, _ => .fail .outOfFuel
  | loopFuel + 1, contents =>
    match contents with
    | [] => .fail (.msg "Key not found")
    | _ :: _ =>
      match unwrapR (pv contents) with
      | .fail e => .fail e
      | .ok (this_key, key_len) =>
        match dropB contents key_len with
        | none => .fail .panicked
        | some after =>
          match dropB (trimStart after) 1 with
          | none => .fail .panicked
          | some c1 =>
            match unwrapR (read_string this_key) with
            | .fail e => .fail e
            | .ok ks =>
              if ks = key then
                match pv c1 with
                | .ok (item, _) => .ok item
                | .fail e => .fail e
              else
                match unwrapR (pv c1) with
                | .fail e => .fail e
                | .ok (_, value_len) =>
                  match dropB c1 value_len with
                  | none => .fail .panicked
                  | some after2 =>
                    match dropB (trimStart after2) 1 with
                    | none => .fail .panicked
                    | some c2 => gkvLoop pv key loopFuel c2

/-- `JSONValue::get_key_value`.  As for the while loops of `parse`,
the loop fuel `contents.length + 1` bounds the iteration count by the
character count of the brace-stripped span, which the loop can never
exceed. -/
def get_key_value (fuel : Nat) (v : JSONValue) (key : List Char) : Res JSONValue :=
  if v.value_type ≠ .Object then .fail (.msg "Cannot parse value as an object")
  else
    match dropB v.contents 1 with
    | none => .fail .panicked
    | some c0 => gkvLoop (parse fuel) key (c0.length + 1) c0

/-- Characters of a string literal, for concrete inputs. -/
def chs (s : String) : List Char := s.toList

/-- Hypothesis encoding for the unterminated-string claim: the scan of
a quoted string never meets a terminating quote, i.e. starting from
escape flag `esc`, no quote of the list is reached with the flag
clear. -/
def noClosingQuote : List Char → Bool → Bool
  | [], _ => true
  | c :: r, esc =>
    if c = '"' ∧ esc = false then false
    else noClosingQuote r (if c = '\\' then !esc else false)

/-- Value of the `is_escaped` flag of the string scan after processing
a list of characters, starting from flag `esc`: a backslash toggles
the flag, every other character clears it.  A character is unescaped
exactly when the flag is clear on reaching it, i.e. when `escAfter` of
the text before it is `false`. -/
def escAfter : List Char → Bool → Bool
  | [], esc => esc
  | c :: r, esc => escAfter r (if c = '\\' then !esc else false)

theorem one_le_charBytes (c : Char) : 1 ≤ charBytes c := by
  unfold charBytes
  repeat' split
  all_goals omega

theorem utf8Len_append (a b : List Char) : utf8Len (a ++ b) = utf8Len a + utf8Len b := by
  induction a with
  | nil => simp [utf8Len]
  | cons c r ih => simp [utf8Len, ih]; omega

theorem one_le_utf8Len (l : List Char) (h : l ≠ []) : 1 ≤ utf8Len l := by
  cases l with
  | nil => exact absurd rfl h
  | cons c r =>
    have := one_le_charBytes c
    simp only [utf8Len]
    omega

theorem dropB_zero (l : List Char) : dropB l 0 = some l := by
  cases l <;> simp [dropB]

theorem dropB_some_decomp :
    ∀ (l m : List Char) (k : Nat), dropB l k = some m →
      ∃ a, l = a ++ m ∧ utf8Len a = k := by
  intro l
  induction l with
  | nil =>
    intro m k h
    simp only [dropB] at h
    split at h
    · next hk => cases h; exact ⟨[], by simp, by simp [utf8Len, hk]⟩
    · cases h
  | cons c r ih =>
    intro m k h
    simp only [dropB] at h
    split at h
    · next hk => cases h; exact ⟨[], by simp, by simp [utf8Len, hk]⟩
    · split at h
      · obtain ⟨a, ha, hlen⟩ := ih m (k - charBytes c) h
        refine ⟨c :: a, by simp [ha], ?_⟩
        simp only [utf8Len, hlen]
        omega
      · cases h

theorem takeB_some_decomp :
    ∀ (l t : List Char) (k : Nat), takeB l k = some t →
      ∃ r, l = t ++ r ∧ utf8Len t = k ∧ dropB l k = some r := by
  intro l
  induction l with
  | nil =>
    intro t k h
    simp only [takeB] at h
    split at h
    · next hk =>
      cases h
      refine ⟨[], by simp, by simp [utf8Len, hk], ?_⟩
      simp [dropB, hk]
    · cases h
  | cons c r ih =>
    intro t k h
    simp only [takeB] at h
    split at h
    · next hk =>
      cases h
      refine ⟨c :: r, by simp, by simp [utf8Len, hk], ?_⟩
      rw [hk, dropB_zero]
    · split at h
      · cases ht : takeB r (k - charBytes c) with
        | none => rw [ht] at h; cases h
        | some t' =>
          rw [ht] at h
          simp only [Option.map] at h
          cases h
          obtain ⟨rr, hr, hlen, hdrop⟩ := ih t' (k - charBytes c) ht
          have hc := one_le_charBytes c
          refine ⟨rr, by simp [hr], ?_, ?_⟩
          · simp only [utf8Len, hlen]
            omega
          · simp only [dropB]
            rw [if_neg (by omega), if_pos (by omega)]
            exact hdrop
      · cases h

theorem dropB_append_add (a l : List Char) (k : Nat) :
    dropB (a ++ l) (utf8Len a + k) = dropB l k := by
  induction a with
  | nil => simp [utf8Len]
  | cons c r ih =>
    have hc := one_le_charBytes c
    simp only [List.cons_append, utf8Len, dropB, List.append_eq]
    rw [if_neg (by omega), if_pos (by omega)]
    have harith : charBytes c + utf8Len r + k - charBytes c = utf8Len r + k := by omega
    rw [harith, ih]

theorem takeB_append_exact (a b : List Char) : takeB (a ++ b) (utf8Len a) = some a := by
  induction a with
  | nil => cases b <;> simp [takeB, utf8Len]
  | cons c r ih =>
    have hc := one_le_charBytes c
    simp only [List.cons_append, takeB, utf8Len, List.append_eq]
    rw [if_neg (by omega), if_pos (by omega)]
    have harith : charBytes c + utf8Len r - charBytes c = utf8Len r := by omega
    rw [harith, ih]
    rfl

theorem takeB_self (l : List Char) : takeB l (utf8Len l) = some l := by
  have h := takeB_append_exact l []
  simpa using h

theorem trim_split (l : List Char) :
    l.takeWhile rustIsWhitespace ++ trimStart l = l := by
  unfold trimStart
  exact List.takeWhile_append_dropWhile rustIsWhitespace l

theorem wsCount_eq (l : List Char) :
    wsCount l = utf8Len (l.takeWhile rustIsWhitespace) := rfl

theorem parse_ok_inv {fuel : Nat} {s : List Char} {v : JSONValue} {n : Nat}
    (h : parse fuel s = .ok (v, n)) :
    ∃ f len, fuel = f + 1 ∧
      scanValue (parse f) (trimStart s) = .ok (v.value_type, len) ∧
      takeB (trimStart s) len = some v.contents ∧
      n = wsCount s + len := by
  cases fuel with
  | zero => simp [parse] at h
  | succ f =>
    simp only [parse, parseStep] at h
    split at h
    · cases h
    · next vt len hsv =>
      split at h
      · next span htk =>
        cases h
        exact ⟨f, len, rfl, hsv, htk, rfl⟩
      · cases h

theorem parse_decomp (fuel : Nat) (s : List Char) (v : JSONValue) (n : Nat)
    (h : parse fuel s = .ok (v, n)) :
    ∃ rest, trimStart s = v.contents ++ rest ∧
      n = wsCount s + utf8Len v.contents ∧
      s = s.takeWhile rustIsWhitespace ++ v.contents ++ rest ∧
      (∀ c ∈ s.takeWhile rustIsWhitespace, rustIsWhitespace c) ∧
      dropB s n = some rest := by
  obtain ⟨f, len, hf, hsv, htk, hn⟩ := parse_ok_inv h
  obtain ⟨rest, hsplit, hlen, _⟩ := takeB_some_decomp _ _ _ htk
  refine ⟨rest, hsplit, by omega, ?_, ?_, ?_⟩
  · conv_lhs => rw [← trim_split s]
    rw [hsplit, List.append_assoc]
  · intro c hc
    exact List.mem_takeWhile_imp hc
  · have hs : s = s.takeWhile rustIsWhitespace ++ (v.contents ++ rest) := by
      conv_lhs => rw [← trim_split s]
      rw [hsplit]
    have h2 : dropB (v.contents ++ rest) len = some rest := by
      rw [← hlen]
      have h3 := dropB_append_add v.contents rest 0
      rw [dropB_zero] at h3
      simpa using h3
    calc dropB s n
        = dropB (s.takeWhile rustIsWhitespace ++ (v.contents ++ rest))
            (utf8Len (s.takeWhile rustIsWhitespace) + len) := by
          rw [← hs, hn, wsCount_eq]
      _ = dropB (v.contents ++ rest) len := dropB_append_add _ _ _
      _ = some rest := h2

theorem utf8Len_cons (c : Char) (l : List Char) :
    utf8Len (c :: l) = charBytes c + utf8Len l := rfl

theorem head?_trim_exists {l : List Char} {c : Char}
    (h : (trimStart l).head? = some c) :
    ∃ tail, trimStart l = c :: tail := by
  cases htr : trimStart l with
  | nil => rw [htr] at h; cases h
  | cons x xs =>
    rw [htr] at h
    simp only [List.head?] at h
    cases h
    exact ⟨xs, rfl⟩

theorem arrLoopF_spec (pv : List Char → Res (JSONValue × Nat)) :
    ∀ (f : Nat) (contents : List Char) (acc res : Nat),
      arrLoopF pv f contents acc = .ok res →
      (∃ a tail, contents = a ++ ']' :: tail ∧ res = acc + utf8Len a + 1) ∨
      res = acc + utf8Len contents := by
  intro f
  induction f with
  | zero => intro c acc res h; simp [arrLoopF] at h
  | succ f ih =>
    intro contents acc res h
    cases contents with
    | nil =>
      simp only [arrLoopF] at h
      cases h
      right
      simp [utf8Len]
    | cons c0 cs =>
      simp only [arrLoopF] at h
      split at h
      · next hbr =>
        cases h
        obtain ⟨tail, htail⟩ := head?_trim_exists hbr
        left
        refine ⟨(c0 :: cs).takeWhile rustIsWhitespace, tail, ?_, ?_⟩
        · conv_lhs => rw [← trim_split (c0 :: cs)]
          rw [htail]
        · rw [wsCount_eq]
      · split at h
        · cases h
        · next item item_len hpv =>
          split at h
          · cases h
          · next after hdropa =>
            split at h
            · cases h
            · next sep afterSep htrim =>
              obtain ⟨kp, hkp, hkpl⟩ := dropB_some_decomp _ _ _ hdropa
              have hafter : after = after.takeWhile rustIsWhitespace ++ sep :: afterSep := by
                conv_lhs => rw [← trim_split after]
                rw [htrim]
              have hws : wsCount after = utf8Len (after.takeWhile rustIsWhitespace) :=
                wsCount_eq after
              have hlenc : utf8Len (c0 :: cs) = item_len + utf8Len after := by
                rw [hkp, utf8Len_append, hkpl]
              split at h
              · next hsep =>
                subst hsep
                have hb : charBytes ',' = 1 := by decide
                have hlena : utf8Len after =
                    utf8Len (after.takeWhile rustIsWhitespace) + (1 + utf8Len afterSep) := by
                  conv_lhs => rw [hafter]
                  rw [utf8Len_append, utf8Len_cons, hb]
                rcases ih _ _ _ h with ⟨a2, tail2, hdec, hres⟩ | hres
                · left
                  refine ⟨kp ++ (after.takeWhile rustIsWhitespace ++ ',' :: a2), tail2, ?_, ?_⟩
                  · rw [hkp]
                    conv_lhs => rw [hafter, hdec]
                    simp [List.append_assoc]
                  · have hda : utf8Len afterSep = utf8Len a2 + (1 + utf8Len tail2) := by
                      rw [hdec, utf8Len_append, utf8Len_cons]
                      have hb2 : charBytes ']' = 1 := by decide
                      rw [hb2]
                    simp only [utf8Len_append, utf8Len_cons, hb]
                    omega
                · right
                  omega
              · split at h
                · next hsep2 =>
                  subst hsep2
                  have hb : charBytes ']' = 1 := by decide
                  have hlena : utf8Len after =
                      utf8Len (after.takeWhile rustIsWhitespace) +
                        utf8Len (']' :: afterSep) := by
                    conv_lhs => rw [hafter]
                    rw [utf8Len_append]
                  rcases ih _ _ _ h with ⟨a2, tail2, hdec, hres⟩ | hres
                  · left
                    refine ⟨kp ++ (after.takeWhile rustIsWhitespace ++ a2), tail2, ?_, ?_⟩
                    · rw [hkp]
                      conv_lhs => rw [hafter, hdec]
                      simp [List.append_assoc]
                    · simp only [utf8Len_append]
                      omega
                  · right
                    omega
                · cases h

theorem objLoopF_spec (pv : List Char → Res (JSONValue × Nat)) :
    ∀ (f : Nat) (contents : List Char) (acc res : Nat),
      objLoopF pv f contents acc = .ok res →
      (∃ a tail, contents = a ++ '}' :: tail ∧ res = acc + utf8Len a + 1) ∨
      res = acc + utf8Len contents := by
  intro f
  induction f with
  | zero => intro c acc res h; simp [objLoopF] at h
  | succ f ih =>
    intro contents acc res h
    cases contents with
    | nil =>
      simp only [objLoopF] at h
      cases h
      right
      simp [utf8Len]
    | cons c0 cs =>
      simp only [objLoopF] at h
      split at h
      · next hbr =>
        cases h
        obtain ⟨tail, htail⟩ := head?_trim_exists hbr
        left
        refine ⟨(c0 :: cs).takeWhile rustIsWhitespace, tail, ?_, ?_⟩
        · conv_lhs => rw [← trim_split (c0 :: cs)]
          rw [htail]
        · rw [wsCount_eq]
      · split at h
        · cases h
        · next item item_len hpv =>
          split at h
          · cases h
          · split at h
            · cases h
            · next after hdropa =>
              split at h
              · cases h
              · next sep afterSep htrim =>
                obtain ⟨kp, hkp, hkpl⟩ := dropB_some_decomp _ _ _ hdropa
                have hafter : after =
                    after.takeWhile rustIsWhitespace ++ sep :: afterSep := by
                  conv_lhs => rw [← trim_split after]
                  rw [htrim]
                have hwsA : wsCount after =
                    utf8Len (after.takeWhile rustIsWhitespace) := wsCount_eq after
                have hlenc : utf8Len (c0 :: cs) = item_len + utf8Len after := by
                  rw [hkp, utf8Len_append, hkpl]
                split at h
                · next hsep =>
                  subst hsep
                  have hbcolon : charBytes ':' = 1 := by decide
                  have hlena : utf8Len after =
                      utf8Len (after.takeWhile rustIsWhitespace) +
                        (1 + utf8Len afterSep) := by
                    conv_lhs => rw [hafter]
                    rw [utf8Len_append, utf8Len_cons, hbcolon]
                  split at h
                  · cases h
                  · next vitem val_len hpv2 =>
                    split at h
                    · cases h
                    · next after2 hdropb =>
                      split at h
                      · cases h
                      · next sep2 afterSep2 htrim2 =>
                        obtain ⟨vp, hvp, hvpl⟩ := dropB_some_decomp _ _ _ hdropb
                        have hafter2 : after2 =
                            after2.takeWhile rustIsWhitespace ++ sep2 :: afterSep2 := by
                          conv_lhs => rw [← trim_split after2]
                          rw [htrim2]
                        have hwsB : wsCount after2 =
                            utf8Len (after2.takeWhile rustIsWhitespace) := wsCount_eq after2
                        have hlenas : utf8Len afterSep = val_len + utf8Len after2 := by
                          rw [hvp, utf8Len_append, hvpl]
                        split at h
                        · next hsep2 =>
                          subst hsep2
                          have hbcomma : charBytes ',' = 1 := by decide
                          have hlena2 : utf8Len after2 =
                              utf8Len (after2.takeWhile rustIsWhitespace) +
                                (1 + utf8Len afterSep2) := by
                            conv_lhs => rw [hafter2]
                            rw [utf8Len_append, utf8Len_cons, hbcomma]
                          rcases ih _ _ _ h with ⟨a2, tail2, hdec, hres⟩ | hres
                          · left
                            refine ⟨kp ++ (after.takeWhile rustIsWhitespace ++
                              ':' :: (vp ++ (after2.takeWhile rustIsWhitespace ++
                                ',' :: a2))), tail2, ?_, ?_⟩
                            · rw [hkp]
                              conv_lhs => rw [hafter, hvp, hafter2, hdec]
                              simp [List.append_assoc]
                            · simp only [utf8Len_append, utf8Len_cons, hbcolon, hbcomma]
                              omega
                          · right
                            omega
                        · split at h
                          · next hsep3 =>
                            subst hsep3
                            have hlena2 : utf8Len after2 =
                                utf8Len (after2.takeWhile rustIsWhitespace) +
                                  utf8Len ('}' :: afterSep2) := by
                              conv_lhs => rw [hafter2]
                              rw [utf8Len_append]
                            rcases ih _ _ _ h with ⟨a2, tail2, hdec, hres⟩ | hres
                            · left
                              refine ⟨kp ++ (after.takeWhile rustIsWhitespace ++
                                ':' :: (vp ++ (after2.takeWhile rustIsWhitespace ++ a2))),
                                tail2, ?_, ?_⟩
                              · rw [hkp]
                                conv_lhs => rw [hafter, hvp, hafter2, hdec]
                                simp [List.append_assoc]
                              · simp only [utf8Len_append, utf8Len_cons, hbcolon]
                                omega
                            · right
                              omega
                          · cases h
                · cases h

theorem strScan_split :
    ∀ (l : List Char) (esc : Bool), ∃ a b, l = a ++ b ∧
      strScan l esc = utf8Len a ∧ (a.getLast? = some '"' ∨ b = []) ∧
      ∀ x y, a = x ++ '"' :: y → y ≠ [] → escAfter x esc = true := by
  intro l
  induction l with
  | nil =>
    intro esc
    refine ⟨[], [], rfl, rfl, Or.inr rfl, ?_⟩
    intro x y hxy _
    exact absurd hxy (by simp)
  | cons c r ih =>
    intro esc
    simp only [strScan]
    split
    · next hquote =>
      refine ⟨[c], r, rfl, by simp [utf8Len], Or.inl (by simp [hquote.1]), ?_⟩
      intro x y hxy hy
      cases x with
      | nil =>
        simp only [List.nil_append] at hxy
        injection hxy with _ hys
        exact absurd hys.symm hy
      | cons x0 xs =>
        simp only [List.cons_append] at hxy
        injection hxy with _ hys
        exact absurd hys.symm (by simp)
    · next hnq =>
      obtain ⟨a2, b2, hsplit, hlen, hor, hq⟩ := ih (decide (c = '\\') && !esc)
      refine ⟨c :: a2, b2, by simp [hsplit], by simp [utf8Len_cons, hlen], ?_, ?_⟩
      · rcases hor with hl | hr
        · left
          cases a2 with
          | nil => simp at hl
          | cons x xs => rw [List.getLast?_cons_cons]; exact hl
        · right
          exact hr
      · intro x y hxy hy
        cases x with
        | nil =>
          simp only [List.nil_append] at hxy
          injection hxy with hc ha
          have hesc : esc = true := by
            cases esc with
            | true => rfl
            | false => exact absurd ⟨hc, rfl⟩ hnq
          simpa [escAfter] using hesc
        | cons x0 xs =>
          simp only [List.cons_append] at hxy
          injection hxy with hc ha
          subst hc
          have hqs := hq xs y ha hy
          simp only [escAfter]
          have hbeq : (if c = '\\' then !esc else false) = (decide (c = '\\') && !esc) := by
            by_cases hcb : c = '\\' <;> simp [hcb]
          rw [hbeq]
          exact hqs

theorem escAfter_true_decomp :
    ∀ (x : List Char) (esc : Bool), escAfter x esc = true →
      (∃ x2, x = x2 ++ ['\\'] ∧ escAfter x2 esc = false) ∨ (x = [] ∧ esc = true) := by
  intro x
  induction x with
  | nil =>
    intro esc h
    right
    exact ⟨rfl, h⟩
  | cons c xs ih =>
    intro esc h
    simp only [escAfter] at h
    rcases ih _ h with ⟨x2, hx2, hesc⟩ | ⟨hnil, hesc⟩
    · left
      refine ⟨c :: x2, by rw [hx2]; rfl, ?_⟩
      simp only [escAfter]
      exact hesc
    · left
      subst hnil
      have hc : c = '\\' ∧ esc = false := by
        by_cases hcb : c = '\\'
        · rw [if_pos hcb] at hesc
          refine ⟨hcb, ?_⟩
          cases esc with
          | false => rfl
          | true => simp at hesc
        · rw [if_neg hcb] at hesc
          cases hesc
      refine ⟨[], ?_, ?_⟩
      · rw [hc.1]
        rfl
      · simp only [escAfter]
        exact hc.2

theorem numScan_mono : ∀ (l : List Char) (acc r : Nat), numScan l acc = .ok r → acc ≤ r := by
  intro l
  induction l with
  | nil => intro acc r h; cases h; exact Nat.le_refl _
  | cons c cs ih =>
    intro acc r h
    simp only [numScan] at h
    split at h
    · split at h
      · cases h
      · have := ih _ _ h
        omega
    · cases h
      exact Nat.le_refl _

theorem scanValue_inv (pv : List Char → Res (JSONValue × Nat)) (c : List Char)
    (vt : JSONValueType) (len : Nat) (h : scanValue pv c = .ok (vt, len)) :
    1 ≤ len ∧
    (vt = .Object → ∃ rest, c = '{' :: rest ∧
      objLoopF pv (rest.length + 1) rest 1 = .ok len) ∧
    (vt = .Array → ∃ rest, c = '[' :: rest ∧
      arrLoopF pv (rest.length + 1) rest 1 = .ok len) ∧
    (vt = .String → ∃ rest, c = '"' :: rest ∧ len = 1 + strScan rest false) := by
  cases c with
  | nil => simp [scanValue] at h
  | cons ch rest =>
    simp only [scanValue] at h
    split at h
    · next hch =>
      subst hch
      split at h
      · next l hloop =>
        cases h
        have hpos : 1 ≤ len := by
          rcases objLoopF_spec pv _ _ _ _ hloop with ⟨a, tail, _, hres⟩ | hres <;> omega
        refine ⟨hpos, fun _ => ⟨rest, rfl, hloop⟩, fun hvt => ?_, fun hvt => ?_⟩ <;> cases hvt
      · cases h
    · split at h
      · next hch =>
        subst hch
        split at h
        · next l hloop =>
          cases h
          have hpos : 1 ≤ len := by
            rcases arrLoopF_spec pv _ _ _ _ hloop with ⟨a, tail, _, hres⟩ | hres <;> omega
          refine ⟨hpos, fun hvt => ?_, fun _ => ⟨rest, rfl, hloop⟩, fun hvt => ?_⟩ <;> cases hvt
        · cases h
      · split at h
        · next hch =>
          subst hch
          cases h
          refine ⟨by omega, fun hvt => ?_, fun hvt => ?_, fun _ => ⟨rest, rfl, rfl⟩⟩ <;> cases hvt
        · split at h
          · next hnum =>
            split at h
            · next l hnumscan =>
              cases h
              have hstart : isNumberChar ch = true := by
                simp only [Bool.or_eq_true, decide_eq_true_eq] at hnum
                rcases hnum with hd | hminus
                · simp [isNumberChar, hd]
                · subst hminus
                  decide
              have hpos : 1 ≤ len := by
                simp only [numScan] at hnumscan
                rw [if_pos hstart] at hnumscan
                rw [if_neg (fun hx => absurd hx.2 (by omega))] at hnumscan
                have hm := numScan_mono _ _ _ hnumscan
                have hcb := one_le_charBytes ch
                omega
              refine ⟨hpos, fun hvt => ?_, fun hvt => ?_, fun hvt => ?_⟩ <;> cases hvt
            · cases h
          · split at h
            · simp only [litCheck] at h
              split at h
              · cases h
              · split at h
                · cases h
                  refine ⟨by omega, fun hvt => ?_, fun hvt => ?_, fun hvt => ?_⟩ <;> cases hvt
                · cases h
            · split at h
              · simp only [litCheck] at h
                split at h
                · cases h
                · split at h
                  · cases h
                    refine ⟨by omega, fun hvt => ?_, fun hvt => ?_, fun hvt => ?_⟩ <;> cases hvt
                  · cases h
              · split at h
                · simp only [litCheck] at h
                  split at h
                  · cases h
                  · split at h
                    · cases h
                      refine ⟨by omega, fun hvt => ?_, fun hvt => ?_, fun hvt => ?_⟩ <;> cases hvt
                    · cases h
                · cases h

theorem getLast?_append_single (l : List Char) (a : Char) :
    (l ++ [a]).getLast? = some a := by
  induction l with
  | nil => rfl
  | cons x xs ih =>
    cases hx : xs ++ [a] with
    | nil => exact absurd hx (by simp)
    | cons y ys =>
      rw [List.cons_append, hx, List.getLast?_cons_cons, ← hx, ih]

theorem utf8Len_eq_zero {l : List Char} (h : utf8Len l = 0) : l = [] := by
  cases l with
  | nil => rfl
  | cons c r =>
    have := one_le_charBytes c
    simp only [utf8Len] at h
    omega

/-- C6: for every successful `parse`, the consumed length is the byte
count of the trimmed leading whitespace plus the byte length of the
returned span, the span excludes that whitespace (it is the first part
of the trimmed input, whose leading characters are all whitespace),
and byte-slicing the original input at the consumed length yields
exactly the text following the parsed value. -/
theorem c6_consumed_length (fuel : Nat) (s : List Char) (v : JSONValue) (n : Nat)
    (h : parse fuel s = .ok (v, n)) :
    ∃ rest, trimStart s = v.contents ++ rest ∧
      n = wsCount s + utf8Len v.contents ∧
      s = s.takeWhile rustIsWhitespace ++ v.contents ++ rest ∧
      (∀ c ∈ s.takeWhile rustIsWhitespace, rustIsWhitespace c) ∧
      dropB s n = some rest :=
  parse_decomp fuel s v n h

/-- C6 witness: the decomposition at the concrete input consisting of
a space, the number 42 and a trailing x. -/
theorem c6_witness :
    ∃ rest, trimStart (chs " 42x") = (⟨chs "42", .Number⟩ : JSONValue).contents ++ rest ∧
      3 = wsCount (chs " 42x") + utf8Len (⟨chs "42", .Number⟩ : JSONValue).contents ∧
      chs " 42x" = (chs " 42x").takeWhile rustIsWhitespace ++
        (⟨chs "42", .Number⟩ : JSONValue).contents ++ rest ∧
      (∀ c ∈ (chs " 42x").takeWhile rustIsWhitespace, rustIsWhitespace c) ∧
      dropB (chs " 42x") 3 = some rest :=
  c6_consumed_length 1 (chs " 42x") ⟨chs "42", .Number⟩ 3 (by decide)

/-- C9: every successfully produced value has a non-empty span. -/
theorem c9_contents_nonempty (fuel : Nat) (s : List Char) (v : JSONValue) (n : Nat)
    (h : parse fuel s = .ok (v, n)) : v.contents ≠ [] := by
  obtain ⟨f, len, hf, hsv, htk, hn⟩ := parse_ok_inv h
  obtain ⟨hpos, -, -, -⟩ := scanValue_inv _ _ _ _ hsv
  obtain ⟨rest, hsplit, hlen, -⟩ := takeB_some_decomp _ _ _ htk
  intro hnil
  rw [hnil] at hlen
  simp [utf8Len] at hlen
  omega

/-- C9 witness: the value parsed from the single digit 7 has a
non-empty span. -/
theorem c9_witness : (⟨chs "7", .Number⟩ : JSONValue).contents ≠ [] :=
  c9_contents_nonempty 1 (chs "7") ⟨chs "7", .Number⟩ 1 (by decide)

/-- C2 counterexample: `parse` succeeds on the truncated inputs
consisting of a lone opening bracket, and of an opening quote followed
by one letter; the resulting Array span does not end with a closing
bracket and the resulting String span does not end with a quote, so
the claimed ends-with-matching-delimiter invariant fails. -/
theorem c2_counterexample :
    (parse 1 (chs "[") = .ok (⟨chs "[", .Array⟩, 1) ∧
      (⟨chs "[", .Array⟩ : JSONValue).contents.getLast? ≠ some ']') ∧
    (parse 1 (chs "\"a") = .ok (⟨chs "\"a", .String⟩, 2) ∧
      (⟨chs "\"a", .String⟩ : JSONValue).contents.getLast? ≠ some '"') := by
  decide

/-- C2 (amended): every successfully produced String, Object or Array
value begins with its opening delimiter (quote, brace, bracket); its
span ends with the matching closing delimiter found by the balanced
recursive scan whenever the scan found one before the input ran out,
and otherwise the span extends to the very end of the input (nothing
of the input follows the parsed value).  Moreover, for a String value
every interior quote — a quote in the span other than the opening
quote and other than the final character — is immediately preceded by
a backslash that is itself unescaped (the escape flag is clear when
the scan reaches that backslash). -/
theorem c2_amended_delimiters (fuel : Nat) (s : List Char) (v : JSONValue) (n : Nat)
    (h : parse fuel s = .ok (v, n)) :
    (v.value_type = .Object → v.contents.head? = some '{' ∧
      (v.contents.getLast? = some '}' ∨ dropB s n = some [])) ∧
    (v.value_type = .Array → v.contents.head? = some '[' ∧
      (v.contents.getLast? = some ']' ∨ dropB s n = some [])) ∧
    (v.value_type = .String → v.contents.head? = some '"' ∧
      ((v.contents.getLast? = some '"' ∧ 2 ≤ v.contents.length) ∨
        dropB s n = some []) ∧
      (∀ x y, v.contents = '"' :: (x ++ '"' :: y) → y ≠ [] →
        ∃ x2, x = x2 ++ ['\\'] ∧ escAfter x2 false = false)) := by
  obtain ⟨f, len, hf, hsv, htk, hn⟩ := parse_ok_inv h
  obtain ⟨hpos, hobj, harr, hstr⟩ := scanValue_inv _ _ _ _ hsv
  obtain ⟨rest, hsplit, hnlen, hass, hwsmem, hdropn⟩ := parse_decomp fuel s v n h
  refine ⟨fun hvt => ?_, fun hvt => ?_, fun hvt => ?_⟩
  · obtain ⟨rest0, hc0, hloop⟩ := hobj hvt
    rcases objLoopF_spec _ _ _ _ _ hloop with ⟨a, tail, hdec, hres⟩ | hres
    · have hbo : charBytes '{' = 1 := by decide
      have hbc : charBytes '}' = 1 := by decide
      have hxlen : utf8Len ('{' :: (a ++ ['}'])) = len := by
        simp only [utf8Len_cons, utf8Len_append, utf8Len, hbo, hbc]
        omega
      have hcont : v.contents = '{' :: (a ++ ['}']) := by
        have hx : trimStart s = ('{' :: (a ++ ['}'])) ++ tail := by
          rw [hc0, hdec]
          simp
        rw [hx, ← hxlen, takeB_append_exact] at htk
        exact (Option.some.inj htk).symm
      refine ⟨by rw [hcont]; rfl, Or.inl ?_⟩
      rw [hcont]
      have hrw : '{' :: (a ++ ['}']) = ('{' :: a) ++ ['}'] := by simp
      rw [hrw, getLast?_append_single]
    · have hbo : charBytes '{' = 1 := by decide
      have hlen2 : len = utf8Len (trimStart s) := by
        rw [hc0, utf8Len_cons, hbo]
        omega
      have hcont : v.contents = trimStart s := by
        rw [hlen2, takeB_self] at htk
        exact (Option.some.inj htk).symm
      refine ⟨by rw [hcont, hc0]; rfl, Or.inr ?_⟩
      have hrest : rest = [] := by
        have hcg := congrArg utf8Len hsplit
        rw [utf8Len_append, hcont] at hcg
        exact utf8Len_eq_zero (by omega)
      rw [hrest] at hdropn
      exact hdropn
  · obtain ⟨rest0, hc0, hloop⟩ := harr hvt
    rcases arrLoopF_spec _ _ _ _ _ hloop with ⟨a, tail, hdec, hres⟩ | hres
    · have hbo : charBytes '[' = 1 := by decide
      have hbc : charBytes ']' = 1 := by decide
      have hxlen : utf8Len ('[' :: (a ++ [']'])) = len := by
        simp only [utf8Len_cons, utf8Len_append, utf8Len, hbo, hbc]
        omega
      have hcont : v.contents = '[' :: (a ++ [']']) := by
        have hx : trimStart s = ('[' :: (a ++ [']'])) ++ tail := by
          rw [hc0, hdec]
          simp
        rw [hx, ← hxlen, takeB_append_exact] at htk
        exact (Option.some.inj htk).symm
      refine ⟨by rw [hcont]; rfl, Or.inl ?_⟩
      rw [hcont]
      have hrw : '[' :: (a ++ [']']) = ('[' :: a) ++ [']'] := by simp
      rw [hrw, getLast?_append_single]
    · have hbo : charBytes '[' = 1 := by decide
      have hlen2 : len = utf8Len (trimStart s) := by
        rw [hc0, utf8Len_cons, hbo]
        omega
      have hcont : v.contents = trimStart s := by
        rw [hlen2, takeB_self] at htk
        exact (Option.some.inj htk).symm
      refine ⟨by rw [hcont, hc0]; rfl, Or.inr ?_⟩
      have hrest : rest = [] := by
        have hcg := congrArg utf8Len hsplit
        rw [utf8Len_append, hcont] at hcg
        exact utf8Len_eq_zero (by omega)
      rw [hrest] at hdropn
      exact hdropn
  · obtain ⟨rest0, hc0, hlen0⟩ := hstr hvt
    obtain ⟨a, b, hab, hsl, hor, hq⟩ := strScan_split rest0 false
    have hbq : charBytes '"' = 1 := by decide
    rcases hor with hend | hbnil
    · have ha_ne : a ≠ [] := by
        intro h0
        rw [h0] at hend
        cases hend
      have hxlen : utf8Len ('"' :: a) = len := by
        rw [utf8Len_cons, hbq, hlen0, hsl]
      have hcont : v.contents = '"' :: a := by
        have hx : trimStart s = ('"' :: a) ++ b := by
          rw [hc0, hab]
          rfl
        rw [hx, ← hxlen, takeB_append_exact] at htk
        exact (Option.some.inj htk).symm
      refine ⟨by rw [hcont]; rfl, Or.inl ⟨?_, ?_⟩, ?_⟩
      · rw [hcont]
        cases a with
        | nil => exact absurd rfl ha_ne
        | cons y ys => rw [List.getLast?_cons_cons]; exact hend
      · rw [hcont]
        have := List.length_pos.mpr ha_ne
        simp only [List.length_cons]
        omega
      · intro x y hxy hy
        rw [hcont] at hxy
        injection hxy with _ ha
        have hesc := hq x y ha hy
        rcases escAfter_true_decomp x false hesc with ⟨x2, hx2, hx2e⟩ | ⟨-, hfalse⟩
        · exact ⟨x2, hx2, hx2e⟩
        · cases hfalse
    · subst hbnil
      have hra : rest0 = a := by simpa using hab
      have hlen2 : len = utf8Len (trimStart s) := by
        rw [hc0, utf8Len_cons, hbq, hlen0, hsl, hra]
      have hcont : v.contents = trimStart s := by
        rw [hlen2, takeB_self] at htk
        exact (Option.some.inj htk).symm
      refine ⟨by rw [hcont, hc0]; rfl, Or.inr ?_, ?_⟩
      · have hrest : rest = [] := by
          have hcg := congrArg utf8Len hsplit
          rw [utf8Len_append, hcont] at hcg
          exact utf8Len_eq_zero (by omega)
        rw [hrest] at hdropn
        exact hdropn
      · intro x y hxy hy
        rw [hcont, hc0, hra] at hxy
        injection hxy with _ ha
        have hesc := hq x y ha hy
        rcases escAfter_true_decomp x false hesc with ⟨x2, hx2, hx2e⟩ | ⟨-, hfalse⟩
        · exact ⟨x2, hx2, hx2e⟩
        · cases hfalse

/-- C2 witness: the amended statement at the concrete input
consisting of a one-element array of the digit 1. -/
theorem c2_amended_witness :
    ((⟨chs "[1]", .Array⟩ : JSONValue).value_type = .Object →
      (⟨chs "[1]", .Array⟩ : JSONValue).contents.head? = some '{' ∧
      ((⟨chs "[1]", .Array⟩ : JSONValue).contents.getLast? = some '}' ∨
        dropB (chs "[1]") 3 = some [])) ∧
    ((⟨chs "[1]", .Array⟩ : JSONValue).value_type = .Array →
      (⟨chs "[1]", .Array⟩ : JSONValue).contents.head? = some '[' ∧
      ((⟨chs "[1]", .Array⟩ : JSONValue).contents.getLast? = some ']' ∨
        dropB (chs "[1]") 3 = some [])) ∧
    ((⟨chs "[1]", .Array⟩ : JSONValue).value_type = .String →
      (⟨chs "[1]", .Array⟩ : JSONValue).contents.head? = some '"' ∧
      (((⟨chs "[1]", .Array⟩ : JSONValue).contents.getLast? = some '"' ∧
        2 ≤ (⟨chs "[1]", .Array⟩ : JSONValue).contents.length) ∨
        dropB (chs "[1]") 3 = some []) ∧
      (∀ x y, (⟨chs "[1]", .Array⟩ : JSONValue).contents = '"' :: (x ++ '"' :: y) →
        y ≠ [] → ∃ x2, x = x2 ++ ['\\'] ∧ escAfter x2 false = false)) :=
  c2_amended_delimiters 2 (chs "[1]") ⟨chs "[1]", .Array⟩ 3 (by decide)

/-- C5 counterexample: on the input tru, shorter than the literal
true, `parse` aborts through the out-of-bounds four-byte slice (the
panic outcome), which is neither a successful Bool or Null value nor
the UnrecognizedLiteral error the claim allows. -/
theorem c5_counterexample :
    parse 1 (chs "tru") = .fail .panicked ∧
    PErr.panicked ≠ PErr.msg "Unrecognised token" := by
  decide

/-- C5 (amended): when the first significant character is t, f or n,
`parse` returns a Bool or Null value spanning exactly the literal
true, false or null when the input continues that way, or fails with
the UnrecognizedLiteral error (Unrecognised token) on a mismatch, or
aborts via the out-of-bounds byte slice (the panic outcome) when
fewer than four (five for f) bytes remain at a character boundary, as
on the input tru of the counterexample. -/
theorem c5_amended_literals (fuel : Nat) (s : List Char)
    (hhead : (trimStart s).head? = some 't' ∨ (trimStart s).head? = some 'f' ∨
      (trimStart s).head? = some 'n') :
    (∃ v n, parse (fuel + 1) s = .ok (v, n) ∧
      ((v.value_type = .Bool ∧ (v.contents = chs "true" ∨ v.contents = chs "false")) ∨
        (v.value_type = .Null ∧ v.contents = chs "null"))) ∨
    parse (fuel + 1) s = .fail (.msg "Unrecognised token") ∨
    parse (fuel + 1) s = .fail .panicked := by
  rcases hhead with hh | hh | hh
  · obtain ⟨rest0, hc0⟩ := head?_trim_exists hh
    have hsc : scanValue (parse fuel) ('t' :: rest0) =
        litCheck ('t' :: rest0) 4 (chs "true") .Bool := rfl
    simp only [parse, parseStep, hc0, hsc, litCheck]
    cases htb : takeB ('t' :: rest0) 4 with
    | none => right; right; rfl
    | some p =>
      dsimp only
      by_cases hp : p = chs "true"
      · rw [if_pos hp]
        left
        exact ⟨⟨p, .Bool⟩, wsCount s + 4, by dsimp only; rw [htb], Or.inl ⟨rfl, Or.inl hp⟩⟩
      · rw [if_neg hp]
        right
        left
        rfl
  · obtain ⟨rest0, hc0⟩ := head?_trim_exists hh
    have hsc : scanValue (parse fuel) ('f' :: rest0) =
        litCheck ('f' :: rest0) 5 (chs "false") .Bool := rfl
    simp only [parse, parseStep, hc0, hsc, litCheck]
    cases htb : takeB ('f' :: rest0) 5 with
    | none => right; right; rfl
    | some p =>
      dsimp only
      by_cases hp : p = chs "false"
      · rw [if_pos hp]
        left
        exact ⟨⟨p, .Bool⟩, wsCount s + 5, by dsimp only; rw [htb], Or.inl ⟨rfl, Or.inr hp⟩⟩
      · rw [if_neg hp]
        right
        left
        rfl
  · obtain ⟨rest0, hc0⟩ := head?_trim_exists hh
    have hsc : scanValue (parse fuel) ('n' :: rest0) =
        litCheck ('n' :: rest0) 4 (chs "null") .Null := rfl
    simp only [parse, parseStep, hc0, hsc, litCheck]
    cases htb : takeB ('n' :: rest0) 4 with
    | none => right; right; rfl
    | some p =>
      dsimp only
      by_cases hp : p = chs "null"
      · rw [if_pos hp]
        left
        exact ⟨⟨p, .Null⟩, wsCount s + 4, by dsimp only; rw [htb], Or.inr ⟨rfl, hp⟩⟩
      · rw [if_neg hp]
        right
        left
        rfl

/-- C5 witness: the amended statement at the concrete input true. -/
theorem c5_amended_witness :
    (∃ v n, parse 1 (chs "true") = .ok (v, n) ∧
      ((v.value_type = .Bool ∧ (v.contents = chs "true" ∨ v.contents = chs "false")) ∨
        (v.value_type = .Null ∧ v.contents = chs "null"))) ∨
    parse 1 (chs "true") = .fail (.msg "Unrecognised token") ∨
    parse 1 (chs "true") = .fail .panicked :=
  c5_amended_literals 0 (chs "true") (Or.inl (by decide))

theorem noClosingQuote_strScan :
    ∀ (l : List Char) (esc : Bool), noClosingQuote l esc = true →
      strScan l esc = utf8Len l := by
  intro l
  induction l with
  | nil => intro esc h; rfl
  | cons c r ih =>
    intro esc h
    by_cases hq : c = '"' ∧ esc = false
    · simp only [noClosingQuote] at h
      rw [if_pos hq] at h
      cases h
    · simp only [noClosingQuote] at h
      rw [if_neg hq] at h
      simp only [strScan]
      rw [if_neg hq, ih _ h]
      simp only [utf8Len]

/-- C10: when the first significant character opens a string that no
later unescaped quote terminates, `parse` still succeeds — there is no
unterminated-string error — and the String value it returns spans from
the opening quote to the very end of the input; on the one-byte such
span (a lone quote), the quote-stripping slice of `read_string` is a
reversed out-of-bounds range and panics. -/
theorem c10_unterminated_string (fuel : Nat) (s rest : List Char)
    (hc : trimStart s = '"' :: rest) (hq : noClosingQuote rest false = true) :
    parse (fuel + 1) s =
      .ok (⟨'"' :: rest, .String⟩, wsCount s + utf8Len ('"' :: rest)) ∧
    (rest = [] → read_string ⟨'"' :: rest, .String⟩ = .fail .panicked) := by
  constructor
  · have hsc : scanValue (parse fuel) ('"' :: rest) =
        .ok (.String, 1 + strScan rest false) := rfl
    have hlen : 1 + strScan rest false = utf8Len ('"' :: rest) := by
      rw [noClosingQuote_strScan rest false hq, utf8Len_cons]
      have hb : charBytes '"' = 1 := by decide
      omega
    simp only [parse, parseStep, hc, hsc]
    rw [hlen, takeB_self]
  · intro hrest
    subst hrest
    decide

/-- C10 witness: the input consisting of a lone quote parses to a
String value of one byte, and `read_string` panics on it. -/
theorem c10_witness :
    parse 1 (chs "\"") =
      .ok (⟨'"' :: [], .String⟩, wsCount (chs "\"") + utf8Len ('"' :: [])) ∧
    (([] : List Char) = [] → read_string ⟨'"' :: [], .String⟩ = .fail .panicked) :=
  c10_unterminated_string 0 (chs "\"") [] (by decide) (by decide)

/-- C7: each accessor fails with its TypeMismatch error when invoked
on a value of an incompatible kind: `read_integer` and `read_float`
on a non-Number, `read_string` on a non-String, `get_nth_array_item`
on a non-Array and `get_key_value` on a non-Object. -/
theorem c7_type_mismatch (fuel : Nat) (v : JSONValue) (n : Nat) (key : List Char) :
    (v.value_type ≠ .Number →
      read_integer v = .fail (.msg "Cannot parse value as integer") ∧
      read_float v = .fail (.msg "Cannot parse value as float")) ∧
    (v.value_type ≠ .String →
      read_string v = .fail (.msg "Cannot parse value as string")) ∧
    (v.value_type ≠ .Array →
      get_nth_array_item fuel v n = .fail (.msg "Cannot parse value as an array")) ∧
    (v.value_type ≠ .Object →
      get_key_value fuel v key = .fail (.msg "Cannot parse value as an object")) := by
  refine ⟨fun h => ⟨?_, ?_⟩, fun h => ?_, fun h => ?_, fun h => ?_⟩
  · unfold read_integer
    rw [if_pos h]
  · unfold read_float
    rw [if_pos h]
  · unfold read_string
    rw [if_pos h]
  · unfold get_nth_array_item
    rw [if_pos h]
  · unfold get_key_value
    rw [if_pos h]

/-- C7 witness: all five TypeMismatch failures on the Null value. -/
theorem c7_witness :
    read_integer ⟨chs "null", .Null⟩ = .fail (.msg "Cannot parse value as integer") ∧
    read_float ⟨chs "null", .Null⟩ = .fail (.msg "Cannot parse value as float") ∧
    read_string ⟨chs "null", .Null⟩ = .fail (.msg "Cannot parse value as string") ∧
    get_nth_array_item 1 ⟨chs "null", .Null⟩ 0 =
      .fail (.msg "Cannot parse value as an array") ∧
    get_key_value 1 ⟨chs "null", .Null⟩ [] =
      .fail (.msg "Cannot parse value as an object") := by
  have h := c7_type_mismatch 1 ⟨chs "null", .Null⟩ 0 []
  exact ⟨(h.1 (by decide)).1, (h.1 (by decide)).2, h.2.1 (by decide),
    h.2.2.1 (by decide), h.2.2.2 (by decide)⟩

/-- C1: evaluation of the minus-sign slip in `read_integer`.  The
digit loop of the source iterates over the whole span including any
leading minus sign and rejects every non-digit, so the Number value
parsed from -5 makes `read_integer` fail instead of returning the
claimed -5 (the computed `neg` flag is dead); digit-only spans are
read correctly and a non-digit such as the e of 1e5 also fails. -/
theorem c1_read_integer_minus_slip :
    parse 1 (chs "-5") = .ok (⟨chs "-5", .Number⟩, 2) ∧
    read_integer ⟨chs "-5", .Number⟩ = .fail (.msg "Cannot parse value as integer") ∧
    read_integer ⟨chs "42", .Number⟩ = .ok 42 ∧
    parse 1 (chs "1e5") = .ok (⟨chs "1e5", .Number⟩, 3) ∧
    read_integer ⟨chs "1e5", .Number⟩ = .fail (.msg "Cannot parse value as integer") := by
  decide

/-- C3: evaluation of array indexing.  The round-trip part of the
claim holds: on the array parsed from [1,2,3], items 0, 1, 2 read as
the integers 1, 2, 3.  On the empty array, however, there is no
IndexOutOfBounds failure: index 0 propagates the scanner error for the
closing bracket and every larger index panics on the unwrapped parse
of that bracket. -/
theorem c3_array_indexing_behavior :
    parse 2 (chs "[1,2,3]") = .ok (⟨chs "[1,2,3]", .Array⟩, 7) ∧
    Res.bind (get_nth_array_item 2 ⟨chs "[1,2,3]", .Array⟩ 0) read_integer = .ok 1 ∧
    Res.bind (get_nth_array_item 2 ⟨chs "[1,2,3]", .Array⟩ 1) read_integer = .ok 2 ∧
    Res.bind (get_nth_array_item 2 ⟨chs "[1,2,3]", .Array⟩ 2) read_integer = .ok 3 ∧
    parse 1 (chs "[]") = .ok (⟨chs "[]", .Array⟩, 2) ∧
    get_nth_array_item 1 ⟨chs "[]", .Array⟩ 0 =
      .fail (.msg "Could not interpret start of token") ∧
    get_nth_array_item 1 ⟨chs "[]", .Array⟩ 1 = .fail .panicked := by
  decide

/-- C4: evaluation of key lookup.  On the Object value parsed from
the empty object, `get_key_value` does not return KeyNotFound: the
loop body first unwraps the parse of the remaining text, which is the
bare closing brace, and that parse fails, so the unwrap panics — for
every key, since the key is never reached.  On an object with at
least one entry, here the spec object with keys id and name,
`get_key_value` behaves as claimed: an absent key exhausts the object
and returns KeyNotFound without panicking, and a present key returns
the corresponding child value. -/
theorem c4_key_lookup_bug :
    parse 1 (chs "\x7b\x7d") = .ok (⟨chs "\x7b\x7d", .Object⟩, 2) ∧
    get_key_value 1 ⟨chs "\x7b\x7d", .Object⟩ (chs "missing") = .fail .panicked ∧
    PErr.panicked ≠ PErr.msg "Key not found" ∧
    parse 3 (chs "\x7b\"id\":0,\"name\":\"Ginger Fuller\"\x7d") =
      .ok (⟨chs "\x7b\"id\":0,\"name\":\"Ginger Fuller\"\x7d", .Object⟩, 31) ∧
    get_key_value 3 ⟨chs "\x7b\"id\":0,\"name\":\"Ginger Fuller\"\x7d", .Object⟩
      (chs "missing") = .fail (.msg "Key not found") ∧
    Res.bind (get_key_value 3 ⟨chs "\x7b\"id\":0,\"name\":\"Ginger Fuller\"\x7d", .Object⟩
      (chs "id")) read_integer = .ok 0 ∧
    Res.bind (get_key_value 3 ⟨chs "\x7b\"id\":0,\"name\":\"Ginger Fuller\"\x7d", .Object⟩
      (chs "name")) read_string = .ok (chs "Ginger Fuller") := by
  decide

/-- C8: the escape discipline of the string scan.  An unescaped quote
terminates the span inclusively (one byte, whatever follows); a
backslash toggles the escape flag for the next character only; hence
an escaped quote continues the scan, while backslash-backslash-quote
(escaped backslash followed by an unescaped quote) terminates at that
quote after exactly three bytes.  At the parse level, a string whose
body is the letter a, two backslashes and a quote spans exactly those
five bytes no matter what text follows the quote. -/
theorem c8_escape_discipline :
    (∀ r : List Char, strScan ('"' :: r) false = 1) ∧
    (∀ (r : List Char) (esc : Bool), strScan ('\\' :: r) esc = 1 + strScan r (!esc)) ∧
    (∀ r : List Char, strScan ('\\' :: '"' :: r) false = 1 + (1 + strScan r false)) ∧
    (∀ r : List Char, strScan ('\\' :: '\\' :: '"' :: r) false = 3) ∧
    (∀ r : List Char, parse 1 ('"' :: 'a' :: '\\' :: '\\' :: '"' :: r) =
      .ok (⟨['"', 'a', '\\', '\\', '"'], .String⟩, 5)) :=
  ⟨fun _ => rfl, fun _ _ => rfl, fun _ => rfl, fun _ => rfl,
    fun r => by cases r <;> rfl⟩

end Microjson
